import Mathlib

/-!
Shallow embedding of the genetic-algorithm engine of this repository
(src/main.rs) and verification of the specification's claims about it.

Modelling conventions:
* Rust strings become `List Char`; `usize` indices become `Nat`; the
  `isize` fitness becomes `Int`.
* Randomness is an explicit oracle: `natDraws k` supplies the raw entropy
  for the k-th integer draw of a call, `ratDraws k` the k-th uniform
  sample from [0,1) consumed by `gen_bool`.  Each engine step receives a
  fresh oracle.
* Operations that can panic in Rust (`gen_range` on an empty range,
  `Option::unwrap`, out-of-bounds indexing through `Vec` index syntax in
  `breed_new`) return `Option`; `none` models a panic.
-/

namespace GAHello

/-- The allowed alphabet, source constant `LETTERS` (26 letters plus space). -/
def LETTERS : List Char := "abcdefghijklmnopqrstuvwxyz ".toList

/-- One population member, source struct `Candidate`. -/
structure Candidate where
  text : List Char
  fitness : Int
  in_focus : Bool
  deriving DecidableEq

/-- `Candidate::new`: a fresh unscored candidate. -/
def Candidate.new (text : List Char) : Candidate :=
  { text := text, fitness := -1, in_focus := false }

/-- The zip/filter/count expression inside `Candidate::set_fitness`. -/
def countMatches (s t : List Char) : Nat :=
  ((s.zip t).filter (fun p => decide (p.1 = p.2))).length

/-- `Candidate::set_fitness`: fitness becomes the count of index-aligned
character equalities with the target. -/
def Candidate.set_fitness (c : Candidate) (target : List Char) : Candidate :=
  { c with fitness := (countMatches c.text target : Int) }

/-- `reset_focus`: clear every candidate's `in_focus` flag. -/
def reset_focus (pop : List Candidate) : List Candidate :=
  pop.map (fun c => { c with in_focus := false })

/-- Entropy source for one engine step.  `ratDraws` models the uniform
samples in [0,1) that `rand`'s `gen_bool` consumes, so its range contract
is part of the structure. -/
structure Oracle where
  natDraws : Nat → Nat
  ratDraws : Nat → ℚ
  ratDraws_nonneg : ∀ i, 0 ≤ ratDraws i
  ratDraws_lt_one : ∀ i, ratDraws i < 1

/-- The all-zeros oracle, used for concrete evaluations. -/
def constOracle : Oracle where
  natDraws := fun _ => 0
  ratDraws := fun _ => 0
  ratDraws_nonneg := fun _ => le_refl 0
  ratDraws_lt_one := fun _ => by norm_num

/-- `rng.gen_range(lo..hi)` driven by raw entropy `k`; panics (`none`)
exactly when the range is empty, as `rand` does. -/
def genRange (lo hi k : Nat) : Option Nat :=
  if lo < hi then some (lo + k % (hi - lo)) else none

/-- `rng.gen_bool(p)` driven by a uniform sample `q` from [0,1): returns
`q < p`; panics (`none`) when `p` is outside [0,1], as `rand` does. -/
def genBool (p q : ℚ) : Option Bool :=
  if 0 ≤ p ∧ p ≤ 1 then some (decide (q < p)) else none

/-- `LETTERS.chars().choose(&mut rng)` driven by raw entropy `k`:
a uniformly chosen letter; `none` would require an empty alphabet. -/
def chooseLetter (k : Nat) : Option Char :=
  LETTERS.get? (k % LETTERS.length)

/-- One position of `breed`: with probability `mp` a random letter,
otherwise a fair coin between the two parents' characters.  Position `k`
consumes `ratDraws (2*k)` (mutation coin), `natDraws (2+k)` (letter) and
`ratDraws (2*k+1)` (parent coin).  The fair coin's probability one half is
written `mkRat 1 2`. -/
def breedChar (mp : ℚ) (o : Oracle) (k : Nat) (ab : Char × Char) : Option Char :=
  match genBool mp (o.ratDraws (2 * k)) with
  | none => none
  | some true => chooseLetter (o.natDraws (2 + k))
  | some false =>
    match genBool (mkRat 1 2) (o.ratDraws (2 * k + 1)) with
    | none => none
    | some coin => some (if coin then ab.1 else ab.2)

/-- The per-position loop of `breed` over the zipped parent texts,
carrying the position index `k` for oracle addressing. -/
def breedText (mp : ℚ) (o : Oracle) : Nat → List (Char × Char) → Option (List Char)
  | _, [] => some []
  | k, ab :: rest =>
    match breedChar mp o k ab, breedText mp o (k + 1) rest with
    | some ch, some t => some (ch :: t)
    | _, _ => none

/-- `breed`: produce one child candidate from two parents. -/
def breed (parent_a parent_b : Candidate) (mp : ℚ) (o : Oracle) : Option Candidate :=
  (breedText mp o 0 (parent_a.text.zip parent_b.text)).map Candidate.new

/-- The engine's phase enumeration, source enum `STATE`. -/
inductive STATE where
  | Init
  | ComputeFitness
  | Reorder
  | RemoveUnfit
  | BreedNew
  deriving DecidableEq

/-- `STATE::description`. -/
def STATE.description : STATE → String
  | .Init => "Seeding the population"
  | .ComputeFitness => "Computing fitness"
  | .Reorder => "Sorting by fitness"
  | .RemoveUnfit => "Removing unfit candidates"
  | .BreedNew => "Breeding new candidates"

/-- The successor phase that `next` moves to when a phase has no work. -/
def STATE.nextState : STATE → STATE
  | .Init => .ComputeFitness
  | .ComputeFitness => .Reorder
  | .Reorder => .RemoveUnfit
  | .RemoveUnfit => .BreedNew
  | .BreedNew => .Init

/-- The engine state, source struct `GeneticAlgorithm` (the observer
callback is modelled by the notification component of `next`'s result). -/
structure GA where
  population : List Candidate
  target_str : List Char
  state : STATE
  num_fit_to_keep : Nat
  population_size : Nat
  mutation_prob : ℚ
  deriving DecidableEq

/-- `GeneticAlgorithm::new`: stores the configuration and starts in
`Init`; it performs no validation of the parameters. -/
def GeneticAlgorithm.new (population : List Candidate) (target_str : List Char)
    (num_fit_to_keep population_size : Nat) (mutation_prob : ℚ) : GA :=
  { population := population
    target_str := target_str
    state := .Init
    num_fit_to_keep := num_fit_to_keep
    population_size := population_size
    mutation_prob := mutation_prob }

/-- The character loop of `seed_population`: `tlen` letter draws starting
at oracle index `k`. -/
def seedText (o : Oracle) : Nat → Nat → Option (List Char)
  | _, 0 => some []
  | k, n + 1 =>
    match chooseLetter (o.natDraws k), seedText o (k + 1) n with
    | some ch, some t => some (ch :: t)
    | _, _ => none

/-- The random text of target length built in `seed_population`. -/
def newText (tlen : Nat) (o : Oracle) : Option (List Char) :=
  seedText o 0 tlen

/-- `population.last_mut().unwrap().in_focus = true`: panics (`none`) on
an empty vector. -/
def markLastUnwrap : List Candidate → Option (List Candidate)
  | [] => none
  | [c] => some [{ c with in_focus := true }]
  | c :: d :: t => (markLastUnwrap (d :: t)).map (fun r => c :: r)

/-- `if let Some(last) = population.last_mut() { last.in_focus = true }`:
a no-op on an empty vector. -/
def markLastIfSome : List Candidate → List Candidate
  | [] => []
  | [c] => [{ c with in_focus := true }]
  | c :: d :: t => c :: markLastIfSome (d :: t)

/-- `seed_population`: append one random candidate while below the cap. -/
def seed_population (pop : List Candidate) (population_size tlen : Nat)
    (o : Oracle) : Option (List Candidate × Bool) :=
  if pop.length < population_size then
    match newText tlen o with
    | none => none
    | some txt =>
      match markLastUnwrap (pop ++ [Candidate.new txt]) with
      | none => none
      | some pop' => some (pop', true)
  else
    some (pop, false)

/-- `compute_fitness`: score the first still-unscored candidate. -/
def compute_fitness : List Candidate → List Char → List Candidate × Bool
  | [], _ => ([], false)
  | c :: t, target =>
    if c.fitness < 0 then
      ({ c.set_fitness target with in_focus := true } :: t, true)
    else
      let r := compute_fitness t target
      (c :: r.1, r.2)

/-- Placeholder candidate for the total embedding of in-bounds slice
indexing inside `reorder_by_fitness` (never reached at the indices the
source uses). -/
def defaultCandidate : Candidate := { text := [], fitness := -1, in_focus := false }

/-- `population[j].fitness` inside `reorder_by_fitness`. -/
def fitAt (l : List Candidate) (j : Nat) : Int :=
  (l.getD j defaultCandidate).fitness

/-- `population.swap(j, j + 1)`. -/
def listSwap : List Candidate → Nat → List Candidate
  | a :: b :: t, 0 => b :: a :: t
  | a :: t, j + 1 => a :: listSwap t j
  | l, _ => l

/-- The inner `for j in 0..n-i-1` loop of `reorder_by_fitness`: `cnt`
iterations remain, `j` is the current index, `made` the accumulated
`made_swap` flag. -/
def innerPass : List Candidate → Nat → Nat → Bool → List Candidate × Bool
  | l, _, 0, made => (l, made)
  | l, j, cnt + 1, made =>
    if fitAt l j < fitAt l (j + 1) then
      innerPass (listSwap l j) (j + 1) cnt true
    else
      innerPass l (j + 1) cnt made

/-- The outer `for i in 0..n` loop of `reorder_by_fitness`: with `r + 1`
outer iterations remaining out of `n`, the current `i` is `n - (r + 1)`,
so the inner loop runs `n - i - 1 = r` times. -/
def outerLoop : List Candidate → Nat → Bool → List Candidate × Bool
  | l, 0, made => (l, made)
  | l, r + 1, made =>
    let p := innerPass l 0 r made
    outerLoop p.1 r p.2

/-- `reorder_by_fitness`: the full double loop (a complete bubble sort,
descending by fitness), returning whether any swap was made. -/
def reorder_by_fitness (pop : List Candidate) : List Candidate × Bool :=
  outerLoop pop pop.length false

/-- `remove_unfit`: pop the last candidate while above the survivor
count, then highlight the new last candidate. -/
def remove_unfit (pop : List Candidate) (num_fit_to_keep : Nat) :
    List Candidate × Bool :=
  if num_fit_to_keep < pop.length then
    (markLastIfSome pop.dropLast, true)
  else
    (pop, false)

/-- The two random parent indices of `breed_new`:
`i` from `gen_range(0..num_fit)` and `j = (i + gen_range(1..num_fit)) % num_fit`. -/
def parent_indices (num_fit : Nat) (o : Oracle) : Option (Nat × Nat) :=
  match genRange 0 num_fit (o.natDraws 0) with
  | none => none
  | some i =>
    match genRange 1 num_fit (o.natDraws 1) with
    | none => none
    | some r => some (i, (i + r) % num_fit)

/-- `population[i].in_focus = true`: panics (`none`) when out of bounds. -/
def setFocusAt (l : List Candidate) (i : Nat) : Option (List Candidate) :=
  match l.get? i with
  | none => none
  | some c => some (l.set i { c with in_focus := true })

/-- `breed_new`: while below the cap, pick two parents, mark them, breed
one child and append it marked. -/
def breed_new (pop : List Candidate) (population_size : Nat) (mp : ℚ)
    (o : Oracle) : Option (List Candidate × Bool) :=
  let num_fit := pop.length
  if pop.length < population_size then
    match parent_indices num_fit o with
    | none => none
    | some ij =>
      let pop1 := reset_focus pop
      match pop1.get? ij.1, pop1.get? ij.2 with
      | some parent_a, some parent_b =>
        match setFocusAt pop1 ij.1 with
        | none => none
        | some pop2 =>
          match setFocusAt pop2 ij.2 with
          | none => none
          | some pop3 =>
            match breed parent_a parent_b mp o with
            | none => none
            | some child => some (markLastIfSome (pop3 ++ [child]), true)
      | _, _ => none
  else
    some (pop, false)

/-- `Iterator::next` for `GeneticAlgorithm`: clear all focus flags, try
the current phase's work unit; on work, notify (the returned `String`)
and keep the phase; on no work, advance the phase and return silently.
`none` models a panic. -/
def next (ga : GA) (o : Oracle) : Option (GA × Option String) :=
  let pop0 := reset_focus ga.population
  match ga.state with
  | .Init =>
    match seed_population pop0 ga.population_size ga.target_str.length o with
    | none => none
    | some (pop', true) =>
      some ({ ga with population := pop' }, some (STATE.description .Init))
    | some (pop', false) =>
      some ({ ga with population := pop', state := .ComputeFitness }, none)
  | .ComputeFitness =>
    match compute_fitness pop0 ga.target_str with
    | (pop', true) =>
      some ({ ga with population := pop' }, some (STATE.description .ComputeFitness))
    | (pop', false) =>
      some ({ ga with population := pop', state := .Reorder }, none)
  | .Reorder =>
    match reorder_by_fitness pop0 with
    | (pop', true) =>
      some ({ ga with population := pop' }, some (STATE.description .Reorder))
    | (pop', false) =>
      some ({ ga with population := pop', state := .RemoveUnfit }, none)
  | .RemoveUnfit =>
    match remove_unfit pop0 ga.num_fit_to_keep with
    | (pop', true) =>
      some ({ ga with population := pop' }, some (STATE.description .RemoveUnfit))
    | (pop', false) =>
      some ({ ga with population := pop', state := .BreedNew }, none)
  | .BreedNew =>
    match breed_new pop0 ga.population_size ga.mutation_prob o with
    | none => none
    | some (pop', true) =>
      some ({ ga with population := pop' }, some (STATE.description .BreedNew))
    | some (pop', false) =>
      some ({ ga with population := pop', state := .Init }, none)

/-- Iterate `next` for `n` external calls, step `k` drawing from oracle
`os k`; `none` as soon as one call panics. -/
def runSteps : Nat → GA → (Nat → Oracle) → Option GA
  | 0, ga, _ => some ga
  | n + 1, ga, os =>
    match next ga (os 0) with
    | none => none
    | some (ga', _) => runSteps n ga' (fun k => os (k + 1))

/-- Whether the current phase has pending work, read off the guards of
the five phase functions. -/
def hasWork (ga : GA) : Bool :=
  match ga.state with
  | .Init => decide (ga.population.length < ga.population_size)
  | .ComputeFitness => ga.population.any (fun c => decide (c.fitness < 0))
  | .Reorder => (reorder_by_fitness (reset_focus ga.population)).2
  | .RemoveUnfit => decide (ga.num_fit_to_keep < ga.population.length)
  | .BreedNew => decide (ga.population.length < ga.population_size)

/-- Following the spec's words, for comparison with the source's
`reorder_by_fitness` (claim C1): a single pass that scans from the
beginning, swaps the first out-of-order adjacent pair (by descending
fitness) and stops there. -/
def specSingleSwapStep : List Candidate → List Candidate × Bool
  | a :: b :: t =>
    if a.fitness < b.fitness then (b :: a :: t, true)
    else
      let r := specSingleSwapStep (b :: t)
      (a :: r.1, r.2)
  | l => (l, false)

/-- Following the spec's words (claim C5): the number of positions of the
target at which candidate text and target hold equal characters. -/
def specMatchCount (s t : List Char) : Nat :=
  ((List.range t.length).filter (fun i => decide (s.get? i = t.get? i))).length

/-- Structural form of one partial bubble pass touching the first
`cnt + 1` elements (proof companion of `innerPass`). -/
def passN : Nat → List Candidate → List Candidate × Bool
  | 0, l => (l, false)
  | _ + 1, [] => ([], false)
  | _ + 1, [a] => ([a], false)
  | cnt + 1, a :: b :: t =>
    if a.fitness < b.fitness then
      (b :: (passN cnt (a :: t)).1, true)
    else
      (a :: (passN cnt (b :: t)).1, (passN cnt (b :: t)).2)

/-- Structural form of the whole double loop of `reorder_by_fitness`
(proof companion of `outerLoop`). -/
def bubbleAux : Nat → List Candidate → List Candidate × Bool
  | 0, l => (l, false)
  | r + 1, l =>
    ((bubbleAux r (passN r l).1).1, ((passN r l).2 || (bubbleAux r (passN r l).1).2))

/-- Non-increasing fitness from front to back. -/
def sortedDesc (l : List Candidate) : Prop :=
  l.Chain' (fun a b => b.fitness ≤ a.fitness)

/-- Every element of the prefix of length `r` dominates (by fitness)
every element of the rest. -/
def domSuffix (r : Nat) (l : List Candidate) : Prop :=
  ∀ a ∈ l.take r, ∀ b ∈ l.drop r, b.fitness ≤ a.fitness

/-- Invariant of the outer bubble-sort loop: beyond position `r` the list
is already sorted and dominated by the first `r` elements. -/
def sortedSuffix (r : Nat) (l : List Candidate) : Prop :=
  sortedDesc (l.drop r) ∧ domSuffix r l

/-- Per-phase population-length constraint of the engine's reachable
states. -/
def stateLenInv : STATE → Nat → Nat → Nat → Prop
  | .Init, len, _, cap => len ≤ cap
  | .ComputeFitness, len, _, cap => len = cap
  | .Reorder, len, _, cap => len = cap
  | .RemoveUnfit, len, keep, cap => keep ≤ len ∧ len ≤ cap
  | .BreedNew, len, keep, cap => keep ≤ len ∧ len ≤ cap

/-- Inductive invariant for panic-freedom: at least two survivors, cap
above the survivor count, a legal mutation probability, and the per-phase
length constraint. -/
def EngineInv (ga : GA) : Prop :=
  2 ≤ ga.num_fit_to_keep ∧ ga.num_fit_to_keep < ga.population_size ∧
    0 ≤ ga.mutation_prob ∧ ga.mutation_prob ≤ 1 ∧
    stateLenInv ga.state ga.population.length ga.num_fit_to_keep ga.population_size

/-! ### Generic list helpers -/

theorem get?_some_of_lt {α : Type} :
    ∀ (l : List α) (n : Nat), n < l.length → ∃ x, l.get? n = some x
  | a :: _, 0, _ => ⟨a, rfl⟩
  | _ :: t, n + 1, h => get?_some_of_lt t n (Nat.lt_of_succ_lt_succ (by simpa using h))

theorem mem_take_succ_of_mem_take {α : Type} {a : α} {r : Nat} {l : List α}
    (h : a ∈ l.take r) : a ∈ l.take (r + 1) := by
  have he : l.take r = (l.take (r + 1)).take r := by
    rw [List.take_take, Nat.min_eq_left (Nat.le_succ r)]
  exact List.take_subset r (l.take (r + 1)) (he ▸ h)

theorem drop_getD_cons :
    ∀ (l : List Candidate) (r : Nat), r < l.length →
      l.drop r = l.getD r defaultCandidate :: l.drop (r + 1)
  | a :: t, 0, _ => rfl
  | a :: t, r + 1, h => drop_getD_cons t r (Nat.lt_of_succ_lt_succ (by simpa using h))

theorem getD_mem_take :
    ∀ (l : List Candidate) (c : Nat), c < l.length →
      l.getD c defaultCandidate ∈ l.take (c + 1)
  | a :: t, 0, _ => List.mem_cons_self a _
  | a :: t, c + 1, h =>
    List.mem_cons_of_mem a (getD_mem_take t c (Nat.lt_of_succ_lt_succ (by simpa using h)))

/-! ### The index-based loops of reorder_by_fitness versus their
structural companions -/

theorem fitAt_cons_succ (a : Candidate) (l : List Candidate) (n : Nat) :
    fitAt (a :: l) (n + 1) = fitAt l n := rfl

theorem fitAt_append_head :
    ∀ (l1 : List Candidate) (a : Candidate) (s : List Candidate),
      fitAt (l1 ++ a :: s) l1.length = a.fitness
  | [], _, _ => rfl
  | _ :: l1, a, s => fitAt_append_head l1 a s

theorem listSwap_append :
    ∀ (l1 : List Candidate) (a b : Candidate) (t : List Candidate),
      listSwap (l1 ++ a :: b :: t) l1.length = l1 ++ b :: a :: t
  | [], _, _, _ => rfl
  | x :: l1, a, b, t => by
    simp only [List.cons_append, List.length_cons, listSwap]
    exact congrArg (x :: ·) (listSwap_append l1 a b t)

theorem passN_perm : ∀ (c : Nat) (l : List Candidate), ((passN c l).1).Perm l := by
  intro c
  induction c with
  | zero => intro l; exact List.Perm.refl l
  | succ c ih =>
    intro l
    match l with
    | [] => exact List.Perm.refl []
    | [a] => exact List.Perm.refl [a]
    | a :: b :: t =>
      by_cases hab : a.fitness < b.fitness
      · simp only [passN, if_pos hab]
        exact ((ih (a :: t)).cons b).trans (List.Perm.swap a b t)
      · simp only [passN, if_neg hab]
        exact (ih (b :: t)).cons a

theorem passN_length (c : Nat) (l : List Candidate) :
    (passN c l).1.length = l.length :=
  (passN_perm c l).length_eq

theorem passN_snd_false_eq :
    ∀ (c : Nat) (l : List Candidate), (passN c l).2 = false → (passN c l).1 = l := by
  intro c
  induction c with
  | zero => intro l _; rfl
  | succ c ih =>
    intro l h
    match l with
    | [] => rfl
    | [a] => rfl
    | a :: b :: t =>
      by_cases hab : a.fitness < b.fitness
      · simp only [passN, if_pos hab] at h
        exact absurd h (by decide)
      · simp only [passN, if_neg hab] at h ⊢
        rw [ih (b :: t) h]

theorem passN_snd_false_sorted :
    ∀ (c : Nat) (l : List Candidate),
      (passN c l).2 = false → l.length ≤ c + 1 → sortedDesc l := by
  intro c
  induction c with
  | zero =>
    intro l _ hlen
    match l with
    | [] => simp [sortedDesc]
    | [a] => simp [sortedDesc]
    | a :: b :: t => simp at hlen
  | succ c ih =>
    intro l h hlen
    match l with
    | [] => simp [sortedDesc]
    | [a] => simp [sortedDesc]
    | a :: b :: t =>
      by_cases hab : a.fitness < b.fitness
      · simp only [passN, if_pos hab] at h
        exact absurd h (by decide)
      · simp only [passN, if_neg hab] at h
        have hs : sortedDesc (b :: t) := by
          refine ih (b :: t) h ?_
          simpa using Nat.le_of_succ_le_succ hlen
        exact (List.chain'_cons.mpr ⟨not_lt.mp hab, hs⟩)

theorem sorted_passN :
    ∀ (c : Nat) (l : List Candidate), sortedDesc l → passN c l = (l, false) := by
  intro c
  induction c with
  | zero => intro l _; rfl
  | succ c ih =>
    intro l h
    match l with
    | [] => rfl
    | [a] => rfl
    | a :: b :: t =>
      have hab : ¬ a.fitness < b.fitness :=
        not_lt.mpr (List.chain'_cons.mp h).1
      have hs : sortedDesc (b :: t) := (List.chain'_cons.mp h).2
      simp only [passN, if_neg hab, ih (b :: t) hs]

theorem passN_drop :
    ∀ (c : Nat) (l : List Candidate), (passN c l).1.drop (c + 1) = l.drop (c + 1) := by
  intro c
  induction c with
  | zero => intro l; rfl
  | succ c ih =>
    intro l
    match l with
    | [] => rfl
    | [a] => rfl
    | a :: b :: t =>
      by_cases hab : a.fitness < b.fitness
      · simp only [passN, if_pos hab, List.drop_succ_cons]
        exact ih (a :: t)
      · simp only [passN, if_neg hab, List.drop_succ_cons]
        exact ih (b :: t)

theorem passN_take_perm :
    ∀ (c : Nat) (l : List Candidate), c < l.length →
      ((passN c l).1.take (c + 1)).Perm (l.take (c + 1)) := by
  intro c
  induction c with
  | zero => intro l _; exact List.Perm.refl _
  | succ c ih =>
    intro l hc
    match l with
    | [] => simp at hc
    | [a] => simp at hc
    | a :: b :: t =>
      have ht : c < (b :: t).length := by simpa using Nat.lt_of_succ_lt_succ hc
      have ht' : c < (a :: t).length := by simpa using Nat.lt_of_succ_lt_succ hc
      by_cases hab : a.fitness < b.fitness
      · simp only [passN, if_pos hab, List.take_succ_cons]
        exact ((ih (a :: t) ht').cons b).trans
          (by simpa [List.take_succ_cons] using List.Perm.swap a b (t.take c))
      · simp only [passN, if_neg hab, List.take_succ_cons]
        exact (ih (b :: t) ht).cons a

theorem passN_carried :
    ∀ (c : Nat) (l : List Candidate), c < l.length →
      (∀ x ∈ (passN c l).1.take c, fitAt (passN c l).1 c ≤ x.fitness) ∧
        fitAt (passN c l).1 c ≤ fitAt l 0 := by
  intro c
  induction c with
  | zero =>
    intro l _
    exact ⟨fun x hx => by simp at hx, le_refl _⟩
  | succ c ih =>
    intro l hc
    match l with
    | [] => simp at hc
    | [a] => simp at hc
    | a :: b :: t =>
      by_cases hab : a.fitness < b.fitness
      · have ht : c < (a :: t).length := by simpa using Nat.lt_of_succ_lt_succ hc
        obtain ⟨ih1, ih2⟩ := ih (a :: t) ht
        simp only [passN, if_pos hab]
        constructor
        · intro x hx
          rw [List.take_succ_cons] at hx
          rcases List.mem_cons.mp hx with hxb | hxm
          · subst hxb
            exact le_trans ih2 (le_of_lt hab)
          · exact ih1 x hxm
        · exact ih2
      · have ht : c < (b :: t).length := by simpa using Nat.lt_of_succ_lt_succ hc
        obtain ⟨ih1, ih2⟩ := ih (b :: t) ht
        have hba : b.fitness ≤ a.fitness := not_lt.mp hab
        simp only [passN, if_neg hab]
        constructor
        · intro x hx
          rw [List.take_succ_cons] at hx
          rcases List.mem_cons.mp hx with hxa | hxm
          · subst hxa
            exact le_trans ih2 hba
          · exact ih1 x hxm
        · exact le_trans ih2 hba

theorem passN_filter (v : Int) :
    ∀ (c : Nat) (l : List Candidate),
      ((passN c l).1.filter (fun x => decide (x.fitness = v))) =
        l.filter (fun x => decide (x.fitness = v)) := by
  intro c
  induction c with
  | zero => intro l; rfl
  | succ c ih =>
    intro l
    match l with
    | [] => rfl
    | [a] => rfl
    | a :: b :: t =>
      by_cases hab : a.fitness < b.fitness
      · simp only [passN, if_pos hab]
        have hm := ih (a :: t)
        by_cases ha : a.fitness = v
        · have hb : ¬ b.fitness = v := by omega
          simp [List.filter_cons, ha, hb, hm]
        · by_cases hb : b.fitness = v
          · simp [List.filter_cons, ha, hb, hm]
          · simp [List.filter_cons, ha, hb, hm]
      · simp only [passN, if_neg hab]
        have hm := ih (b :: t)
        simp [List.filter_cons, hm]

theorem innerPass_eq :
    ∀ (c : Nat) (l2 l1 : List Candidate) (made : Bool), c < l2.length →
      innerPass (l1 ++ l2) l1.length c made =
        (l1 ++ (passN c l2).1, made || (passN c l2).2) := by
  intro c
  induction c with
  | zero =>
    intro l2 l1 made _
    simp [innerPass, passN]
  | succ c ih =>
    intro l2 l1 made hc
    match l2 with
    | [] => simp at hc
    | [a] => simp at hc
    | a :: b :: t =>
      have hf1 : fitAt (l1 ++ a :: b :: t) l1.length = a.fitness :=
        fitAt_append_head l1 a (b :: t)
      have hsplit : l1 ++ a :: b :: t = (l1 ++ [a]) ++ b :: t := by simp
      have hf2 : fitAt (l1 ++ a :: b :: t) (l1.length + 1) = b.fitness := by
        rw [hsplit, (by simp : l1.length + 1 = (l1 ++ [a]).length)]
        exact fitAt_append_head (l1 ++ [a]) b t
      have hct : c < (a :: t).length := by simpa using Nat.lt_of_succ_lt_succ hc
      have hct' : c < (b :: t).length := by simpa using Nat.lt_of_succ_lt_succ hc
      by_cases hab : a.fitness < b.fitness
      · have hswap : listSwap (l1 ++ a :: b :: t) l1.length = (l1 ++ [b]) ++ a :: t := by
          rw [listSwap_append]; simp
        calc innerPass (l1 ++ a :: b :: t) l1.length (c + 1) made
            = innerPass ((l1 ++ [b]) ++ a :: t) (l1 ++ [b]).length c true := by
              simp only [innerPass, hf1, hf2, if_pos hab, hswap]
              congr 1
              simp
          _ = ((l1 ++ [b]) ++ (passN c (a :: t)).1, true || (passN c (a :: t)).2) :=
              ih (a :: t) (l1 ++ [b]) true hct
          _ = (l1 ++ (passN (c + 1) (a :: b :: t)).1,
                made || (passN (c + 1) (a :: b :: t)).2) := by
              simp [passN, if_pos hab]
      · calc innerPass (l1 ++ a :: b :: t) l1.length (c + 1) made
            = innerPass ((l1 ++ [a]) ++ b :: t) (l1 ++ [a]).length c made := by
              simp only [innerPass, hf1, hf2, if_neg hab]
              rw [← hsplit]
              congr 1
              simp
          _ = ((l1 ++ [a]) ++ (passN c (b :: t)).1, made || (passN c (b :: t)).2) :=
              ih (b :: t) (l1 ++ [a]) made hct'
          _ = (l1 ++ (passN (c + 1) (a :: b :: t)).1,
                made || (passN (c + 1) (a :: b :: t)).2) := by
              simp [passN, if_neg hab]

theorem outerLoop_eq :
    ∀ (r : Nat) (l : List Candidate) (made : Bool), r ≤ l.length →
      outerLoop l r made = ((bubbleAux r l).1, made || (bubbleAux r l).2) := by
  intro r
  induction r with
  | zero => intro l made _; simp [outerLoop, bubbleAux]
  | succ r ih =>
    intro l made hr
    have hinner : innerPass l 0 r made = ((passN r l).1, made || (passN r l).2) := by
      have := innerPass_eq r l [] made (Nat.lt_of_succ_le hr)
      simpa using this
    have hlen : r ≤ (passN r l).1.length := by
      rw [passN_length]; omega
    calc outerLoop l (r + 1) made
        = outerLoop (passN r l).1 r (made || (passN r l).2) := by
          simp only [outerLoop]
          rw [hinner]
      _ = ((bubbleAux r (passN r l).1).1,
            (made || (passN r l).2) || (bubbleAux r (passN r l).1).2) :=
          ih (passN r l).1 (made || (passN r l).2) hlen
      _ = ((bubbleAux (r + 1) l).1, made || (bubbleAux (r + 1) l).2) := by
          simp [bubbleAux, Bool.or_assoc]

theorem reorder_eq (pop : List Candidate) :
    reorder_by_fitness pop =
      ((bubbleAux pop.length pop).1, (bubbleAux pop.length pop).2) := by
  have := outerLoop_eq pop.length pop false (le_refl _)
  simpa [reorder_by_fitness] using this

theorem sortedSuffix_step (r : Nat) (l : List Candidate) (hr : r < l.length)
    (h : sortedSuffix (r + 1) l) : sortedSuffix r (passN r l).1 := by
  obtain ⟨hs, hd⟩ := h
  have hlen : (passN r l).1.length = l.length := passN_length r l
  have hr' : r < (passN r l).1.length := by rw [hlen]; exact hr
  have hdrop : (passN r l).1.drop r =
      (passN r l).1.getD r defaultCandidate :: l.drop (r + 1) := by
    rw [drop_getD_cons _ r hr', passN_drop]
  have hcar_mem : (passN r l).1.getD r defaultCandidate ∈ l.take (r + 1) :=
    (passN_take_perm r l hr).subset (getD_mem_take _ r hr')
  constructor
  · rw [hdrop]
    refine List.chain'_cons'.mpr ⟨?_, hs⟩
    intro y hy
    have hy' : y ∈ l.drop (r + 1) := List.mem_of_mem_head? hy
    exact hd _ hcar_mem y hy'
  · intro a ha b hb
    rw [hdrop] at hb
    rcases List.mem_cons.mp hb with hb1 | hb2
    · subst hb1
      exact (passN_carried r l hr).1 a ha
    · have ha' : a ∈ (passN r l).1.take (r + 1) := mem_take_succ_of_mem_take ha
      have ha'' : a ∈ l.take (r + 1) := (passN_take_perm r l hr).subset ha'
      exact hd a ha'' b hb2

theorem bubbleAux_sorted :
    ∀ (r : Nat) (l : List Candidate), r ≤ l.length → sortedSuffix r l →
      sortedDesc (bubbleAux r l).1 := by
  intro r
  induction r with
  | zero =>
    intro l _ h
    have := h.1
    simpa using this
  | succ r ih =>
    intro l hr h
    have hstep := sortedSuffix_step r l (Nat.lt_of_succ_le hr) h
    have hlen : r ≤ (passN r l).1.length := by rw [passN_length]; omega
    exact ih (passN r l).1 hlen hstep

theorem bubbleAux_perm : ∀ (r : Nat) (l : List Candidate), ((bubbleAux r l).1).Perm l := by
  intro r
  induction r with
  | zero => intro l; exact List.Perm.refl l
  | succ r ih =>
    intro l
    exact (ih (passN r l).1).trans (passN_perm r l)

theorem bubbleAux_snd_false_eq :
    ∀ (r : Nat) (l : List Candidate), (bubbleAux r l).2 = false → (bubbleAux r l).1 = l := by
  intro r
  induction r with
  | zero => intro l _; rfl
  | succ r ih =>
    intro l h
    simp only [bubbleAux, Bool.or_eq_false_iff] at h
    have hp : (passN r l).1 = l := passN_snd_false_eq r l h.1
    have := ih (passN r l).1 (by rw [hp]; rw [hp] at h; exact h.2)
    simp only [bubbleAux]
    rw [hp] at this ⊢
    exact this

theorem bubbleAux_snd_false_sorted (r : Nat) (l : List Candidate)
    (h : (bubbleAux r l).2 = false) (hlen : l.length ≤ r) : sortedDesc l := by
  match r with
  | 0 =>
    have : l = [] := List.length_eq_zero.mp (Nat.le_zero.mp hlen)
    subst this
    simp [sortedDesc]
  | r + 1 =>
    simp only [bubbleAux, Bool.or_eq_false_iff] at h
    exact passN_snd_false_sorted r l h.1 hlen

theorem sorted_bubbleAux_snd :
    ∀ (r : Nat) (l : List Candidate), sortedDesc l → (bubbleAux r l).2 = false := by
  intro r
  induction r with
  | zero => intro l _; rfl
  | succ r ih =>
    intro l h
    have hp : passN r l = (l, false) := sorted_passN r l h
    simp only [bubbleAux, hp]
    exact ih l h

theorem bubbleAux_filter (v : Int) :
    ∀ (r : Nat) (l : List Candidate),
      ((bubbleAux r l).1.filter (fun x => decide (x.fitness = v))) =
        l.filter (fun x => decide (x.fitness = v)) := by
  intro r
  induction r with
  | zero => intro l; rfl
  | succ r ih =>
    intro l
    simp only [bubbleAux]
    rw [ih (passN r l).1, passN_filter]

/-- Claim C1, counterexample.  The spec says a Sorting step stops at the
first out-of-order adjacent pair and performs at most one swap per call;
on the population with fitness values 0, 1, 2 that behaviour would yield
fitness order 1, 0, 2, but the source's `reorder_by_fitness` runs the
complete double loop and returns the fully sorted order 2, 1, 0 in one
call (three swaps). -/
theorem c1_counterexample :
    (specSingleSwapStep
        [⟨['a'], 0, false⟩, ⟨['b'], 1, false⟩, ⟨['c'], 2, false⟩]).1 =
      [⟨['b'], 1, false⟩, ⟨['a'], 0, false⟩, ⟨['c'], 2, false⟩] ∧
    (reorder_by_fitness
        [⟨['a'], 0, false⟩, ⟨['b'], 1, false⟩, ⟨['c'], 2, false⟩]).1 =
      [⟨['c'], 2, false⟩, ⟨['b'], 1, false⟩, ⟨['a'], 0, false⟩] ∧
    (reorder_by_fitness
        [⟨['a'], 0, false⟩, ⟨['b'], 1, false⟩, ⟨['c'], 2, false⟩]).1 ≠
      (specSingleSwapStep
        [⟨['a'], 0, false⟩, ⟨['b'], 1, false⟩, ⟨['c'], 2, false⟩]).1 :=
  ⟨by decide, by decide, by decide⟩

/-- Claim C1, amended: each Sorting-phase call of `reorder_by_fitness`
performs a complete bubble sort within the single call: the result is a
permutation of the input sorted in non-increasing fitness order, and the
call reports work exactly when the input had some out-of-order adjacent
pair (so a single call may perform many swaps, not at most one). -/
theorem c1_amended (pop : List Candidate) :
    ((reorder_by_fitness pop).1).Perm pop ∧
    sortedDesc (reorder_by_fitness pop).1 ∧
    ((reorder_by_fitness pop).2 = true ↔ ¬ sortedDesc pop) := by
  have he := reorder_eq pop
  refine ⟨?_, ?_, ?_, ?_⟩
  · rw [he]
    exact bubbleAux_perm _ _
  · rw [he]
    refine bubbleAux_sorted _ _ (le_refl _) ⟨?_, ?_⟩
    · rw [List.drop_length]
      exact List.chain'_nil
    · intro a _ b hb
      rw [List.drop_length] at hb
      simp at hb
  · intro h hsort
    rw [he] at h
    have hf := sorted_bubbleAux_snd pop.length pop hsort
    rw [hf] at h
    exact absurd h (by decide)
  · intro hns
    rw [he]
    rcases Bool.eq_false_or_eq_true (bubbleAux pop.length pop).2 with ht | hf
    · exact ht
    · exact absurd (bubbleAux_snd_false_sorted _ _ hf (le_refl _)) hns

/-- Claim C7: when `reorder_by_fitness` reports no work (no swap made),
the population's fitness sequence is non-increasing from front to back,
and the call left the population unchanged. -/
theorem c7_sort_no_work_sorted (pop : List Candidate)
    (h : (reorder_by_fitness pop).2 = false) :
    sortedDesc pop ∧ (reorder_by_fitness pop).1 = pop := by
  have he := reorder_eq pop
  have h2 : (bubbleAux pop.length pop).2 = false := by rw [he] at h; exact h
  refine ⟨bubbleAux_snd_false_sorted _ _ h2 (le_refl _), ?_⟩
  rw [he]
  exact bubbleAux_snd_false_eq _ _ h2

/-- Witness for C7 at a concrete already-sorted population. -/
theorem c7_witness :
    sortedDesc [(⟨['a'], 1, false⟩ : Candidate), ⟨['b'], 0, false⟩] ∧
    (reorder_by_fitness [(⟨['a'], 1, false⟩ : Candidate), ⟨['b'], 0, false⟩]).1 =
      [(⟨['a'], 1, false⟩ : Candidate), ⟨['b'], 0, false⟩] :=
  c7_sort_no_work_sorted _ (by decide)

/-- Claim C10: `reorder_by_fitness` is stable on equal fitness: for every
fitness value, the subsequence of candidates carrying that value is
unchanged by a Sorting-phase call (swaps happen only on strictly
out-of-order pairs). -/
theorem c10_sort_stable (pop : List Candidate) (v : Int) :
    ((reorder_by_fitness pop).1.filter (fun c => decide (c.fitness = v))) =
      pop.filter (fun c => decide (c.fitness = v)) := by
  have he := reorder_eq pop
  rw [he]
  exact bubbleAux_filter v pop.length pop

/-! ### Engine helper lemmas -/

theorem reset_focus_length (pop : List Candidate) :
    (reset_focus pop).length = pop.length := by
  simp [reset_focus]

theorem reset_focus_map_pair (pop : List Candidate) :
    (reset_focus pop).map (fun c => (c.text, c.fitness)) =
      pop.map (fun c => (c.text, c.fitness)) := by
  induction pop with
  | nil => rfl
  | cons c t ih => simp only [reset_focus, List.map_cons] at ih ⊢; rw [ih]

theorem reset_focus_map_text (pop : List Candidate) :
    (reset_focus pop).map Candidate.text = pop.map Candidate.text := by
  induction pop with
  | nil => rfl
  | cons c t ih => simp only [reset_focus, List.map_cons] at ih ⊢; rw [ih]

theorem reset_focus_map_fitness (pop : List Candidate) :
    (reset_focus pop).map Candidate.fitness = pop.map Candidate.fitness := by
  induction pop with
  | nil => rfl
  | cons c t ih => simp only [reset_focus, List.map_cons] at ih ⊢; rw [ih]

theorem reset_focus_all_false (pop : List Candidate) :
    ∀ c ∈ reset_focus pop, c.in_focus = false := by
  intro c hc
  obtain ⟨d, _, rfl⟩ := List.mem_map.mp hc
  rfl

theorem reset_focus_no_negative (pop : List Candidate)
    (h : ∀ c ∈ pop, ¬ c.fitness < 0) :
    ∀ c ∈ reset_focus pop, ¬ c.fitness < 0 := by
  intro c hc
  obtain ⟨d, hd, rfl⟩ := List.mem_map.mp hc
  exact h d hd

theorem compute_fitness_length :
    ∀ (l : List Candidate) (t : List Char),
      (compute_fitness l t).1.length = l.length := by
  intro l
  induction l with
  | nil => intro t; rfl
  | cons c rest ih =>
    intro t
    by_cases hc : c.fitness < 0
    · simp [compute_fitness, if_pos hc]
    · simp [compute_fitness, if_neg hc, ih t]

theorem compute_fitness_no_work :
    ∀ (l : List Candidate) (t : List Char),
      (∀ c ∈ l, ¬ c.fitness < 0) → compute_fitness l t = (l, false) := by
  intro l
  induction l with
  | nil => intro t _; rfl
  | cons c rest ih =>
    intro t h
    have hc : ¬ c.fitness < 0 := h c (List.mem_cons_self c rest)
    have hrest := ih t (fun d hd => h d (List.mem_cons_of_mem c hd))
    simp [compute_fitness, if_neg hc, hrest]

theorem markLastUnwrap_append :
    ∀ (l : List Candidate) (c : Candidate),
      markLastUnwrap (l ++ [c]) = some (l ++ [{ c with in_focus := true }])
  | [], c => rfl
  | [x], c => rfl
  | x :: y :: l, c => by
    have ih := markLastUnwrap_append (y :: l) c
    simp only [List.cons_append] at ih ⊢
    rw [markLastUnwrap, ih]
    rfl

theorem markLastIfSome_append :
    ∀ (l : List Candidate) (c : Candidate),
      markLastIfSome (l ++ [c]) = l ++ [{ c with in_focus := true }]
  | [], c => rfl
  | [x], c => rfl
  | x :: y :: l, c => by
    have ih := markLastIfSome_append (y :: l) c
    simp only [List.cons_append] at ih ⊢
    rw [markLastIfSome, ih]

theorem markLastIfSome_length :
    ∀ (l : List Candidate), (markLastIfSome l).length = l.length
  | [] => rfl
  | [_] => rfl
  | x :: y :: l => by
    have ih := markLastIfSome_length (y :: l)
    rw [markLastIfSome]
    simpa using ih

theorem seedText_some (o : Oracle) :
    ∀ (n k : Nat), ∃ t, seedText o k n = some t ∧ t.length = n := by
  intro n
  induction n with
  | zero => intro k; exact ⟨[], rfl, rfl⟩
  | succ n ih =>
    intro k
    have hlt : o.natDraws k % LETTERS.length < LETTERS.length :=
      Nat.mod_lt _ (by decide)
    obtain ⟨ch, hch⟩ := get?_some_of_lt LETTERS _ hlt
    rw [List.get?_eq_getElem?] at hch
    obtain ⟨t, ht, hlen⟩ := ih (k + 1)
    refine ⟨ch :: t, ?_, by simp [hlen]⟩
    simp [seedText, chooseLetter, hch, ht]

theorem seed_population_no_work (pop : List Candidate) (cap tlen : Nat) (o : Oracle)
    (h : ¬ pop.length < cap) :
    seed_population pop cap tlen o = some (pop, false) := by
  simp [seed_population, if_neg h]

theorem seed_population_work (pop : List Candidate) (cap tlen : Nat) (o : Oracle)
    (h : pop.length < cap) :
    ∃ txt, txt.length = tlen ∧
      seed_population pop cap tlen o =
        some (pop ++ [{ text := txt, fitness := -1, in_focus := true }], true) := by
  obtain ⟨txt, htxt, hlen⟩ := seedText_some o tlen 0
  refine ⟨txt, hlen, ?_⟩
  have hmark := markLastUnwrap_append pop (Candidate.new txt)
  simp only [seed_population, if_pos h, newText, htxt, hmark]
  rfl

theorem seed_population_inv (pop pop' : List Candidate) (cap tlen : Nat) (o : Oracle)
    (b : Bool) (h : seed_population pop cap tlen o = some (pop', b)) :
    (b = true ∧ pop.length < cap ∧ pop'.length = pop.length + 1) ∨
      (b = false ∧ pop' = pop ∧ ¬ pop.length < cap) := by
  by_cases hg : pop.length < cap
  · left
    obtain ⟨txt, _, heq⟩ := seed_population_work pop cap tlen o hg
    rw [heq] at h
    injection h with h'
    injection h' with h1 h2
    refine ⟨h2.symm, hg, ?_⟩
    rw [← h1]
    simp
  · right
    rw [seed_population_no_work pop cap tlen o hg] at h
    injection h with h'
    injection h' with h1 h2
    exact ⟨h2.symm, h1.symm, hg⟩

theorem remove_unfit_work (pop : List Candidate) (keep : Nat)
    (h : keep < pop.length) :
    remove_unfit pop keep = (markLastIfSome pop.dropLast, true) := by
  simp [remove_unfit, if_pos h]

theorem remove_unfit_no_work (pop : List Candidate) (keep : Nat)
    (h : ¬ keep < pop.length) :
    remove_unfit pop keep = (pop, false) := by
  simp [remove_unfit, if_neg h]

theorem remove_unfit_work_length (pop : List Candidate) :
    (markLastIfSome pop.dropLast).length = pop.length - 1 := by
  rw [markLastIfSome_length, List.length_dropLast]

theorem setFocusAt_length (l l' : List Candidate) (i : Nat)
    (h : setFocusAt l i = some l') : l'.length = l.length := by
  unfold setFocusAt at h
  cases hg : l.get? i with
  | none => rw [hg] at h; exact absurd h (by simp)
  | some c =>
    rw [hg] at h
    injection h with h'
    rw [← h']
    exact List.length_set l i _

theorem map_set_focus :
    ∀ (l : List Candidate) (i : Nat) (c : Candidate), l.get? i = some c →
      (l.set i { c with in_focus := true }).map Candidate.text = l.map Candidate.text ∧
        (l.set i { c with in_focus := true }).map Candidate.fitness =
          l.map Candidate.fitness
  | [], i, c, h => by simp at h
  | x :: t, 0, c, h => by
    injection h with h'
    subst h'
    simp
  | x :: t, i + 1, c, h => by
    have ih := map_set_focus t i c h
    simp only [List.set]
    simp [ih.1, ih.2]

theorem setFocusAt_spec (l : List Candidate) (i : Nat) (h : i < l.length) :
    ∃ l', setFocusAt l i = some l' ∧
      l'.map Candidate.text = l.map Candidate.text ∧
      l'.map Candidate.fitness = l.map Candidate.fitness ∧
      l'.length = l.length := by
  obtain ⟨c, hc⟩ := get?_some_of_lt l i h
  obtain ⟨h1, h2⟩ := map_set_focus l i c hc
  have hc' : l[i]? = some c := by rw [← List.get?_eq_getElem?]; exact hc
  exact ⟨l.set i { c with in_focus := true }, by simp [setFocusAt, hc'], h1, h2,
    List.length_set l i _⟩

/-! ### Breeding lemmas -/

theorem breedChar_some (mp : ℚ) (o : Oracle) (h0 : 0 ≤ mp) (h1 : mp ≤ 1)
    (k : Nat) (ab : Char × Char) : ∃ ch, breedChar mp o k ab = some ch := by
  unfold breedChar
  rw [genBool, if_pos ⟨h0, h1⟩]
  cases hmu : decide (o.ratDraws (2 * k) < mp) with
  | true =>
    have hlt : o.natDraws (2 + k) % LETTERS.length < LETTERS.length :=
      Nat.mod_lt _ (by decide)
    obtain ⟨ch, hch⟩ := get?_some_of_lt LETTERS _ hlt
    rw [List.get?_eq_getElem?] at hch
    exact ⟨ch, by simp [chooseLetter, hch]⟩
  | false =>
    refine ⟨if decide (o.ratDraws (2 * k + 1) < mkRat 1 2) then ab.1 else ab.2, ?_⟩
    rw [genBool, if_pos (by decide : (0:ℚ) ≤ mkRat 1 2 ∧ mkRat 1 2 ≤ (1:ℚ))]

theorem breedText_some (mp : ℚ) (o : Oracle) (h0 : 0 ≤ mp) (h1 : mp ≤ 1) :
    ∀ (ps : List (Char × Char)) (k : Nat),
      ∃ t, breedText mp o k ps = some t ∧ t.length = ps.length := by
  intro ps
  induction ps with
  | nil => intro k; exact ⟨[], rfl, rfl⟩
  | cons p rest ih =>
    intro k
    obtain ⟨ch, hch⟩ := breedChar_some mp o h0 h1 k p
    obtain ⟨t, ht, hlen⟩ := ih (k + 1)
    exact ⟨ch :: t, by simp [breedText, hch, ht], by simp [hlen]⟩

theorem breed_some (pa pb : Candidate) (mp : ℚ) (o : Oracle)
    (h0 : 0 ≤ mp) (h1 : mp ≤ 1) :
    ∃ child, breed pa pb mp o = some child ∧
      child.text.length = min pa.text.length pb.text.length ∧
      child.fitness = -1 ∧ child.in_focus = false := by
  obtain ⟨t, ht, hlen⟩ := breedText_some mp o h0 h1 (pa.text.zip pb.text) 0
  refine ⟨Candidate.new t, by simp [breed, ht], ?_, rfl, rfl⟩
  rw [show (Candidate.new t).text = t from rfl, hlen, List.length_zip]

theorem zip_get? {α β : Type} :
    ∀ (s : List α) (t : List β) (k : Nat) (p : α × β),
      (s.zip t).get? k = some p → s.get? k = some p.1 ∧ t.get? k = some p.2 := by
  intro s
  induction s with
  | nil => intro t k p h; simp [List.zip] at h
  | cons a s ih =>
    intro t k p h
    cases t with
    | nil => simp [List.zip] at h
    | cons b t =>
      cases k with
      | zero =>
        simp only [List.zip_cons_cons, List.get?] at h
        injection h with h'
        subst h'
        exact ⟨rfl, rfl⟩
      | succ k =>
        simp only [List.zip_cons_cons, List.get?] at h ⊢
        exact ih t k p h

theorem breedText_get? (mp : ℚ) (o : Oracle) :
    ∀ (ps : List (Char × Char)) (k0 : Nat) (t : List Char),
      breedText mp o k0 ps = some t →
      ∀ (k : Nat) (ab : Char × Char), ps.get? k = some ab →
        ∃ ch, t.get? k = some ch ∧ breedChar mp o (k0 + k) ab = some ch := by
  intro ps
  induction ps with
  | nil => intro k0 t _ k ab hab; simp at hab
  | cons p rest ih =>
    intro k0 t ht k ab hab
    unfold breedText at ht
    cases hc : breedChar mp o k0 p with
    | none => rw [hc] at ht; exact absurd ht (by simp)
    | some ch0 =>
      cases hr : breedText mp o (k0 + 1) rest with
      | none => rw [hc, hr] at ht; exact absurd ht (by simp)
      | some t' =>
        rw [hc, hr] at ht
        injection ht with ht'
        subst ht'
        cases k with
        | zero =>
          simp only [List.get?] at hab
          injection hab with hab'
          subst hab'
          exact ⟨ch0, rfl, by simpa using hc⟩
        | succ k =>
          simp only [List.get?] at hab ⊢
          obtain ⟨ch, hch, hbc⟩ := ih (k0 + 1) t' hr k ab hab
          refine ⟨ch, hch, ?_⟩
          have : k0 + 1 + k = k0 + (k + 1) := by omega
          rw [← this]
          exact hbc

theorem parent_indices_spec (n : Nat) (o : Oracle) (h2 : 2 ≤ n) :
    ∃ i j, parent_indices n o = some (i, j) ∧ i < n ∧ j < n ∧ i ≠ j := by
  have hn0 : 0 < n := by omega
  have hn1 : 1 < n := by omega
  have hi : genRange 0 n (o.natDraws 0) = some (o.natDraws 0 % n) := by
    simp [genRange, if_pos hn0]
  have hr : genRange 1 n (o.natDraws 1) = some (1 + o.natDraws 1 % (n - 1)) := by
    simp [genRange, if_pos hn1]
  set i := o.natDraws 0 % n with hidef
  set r := 1 + o.natDraws 1 % (n - 1) with hrdef
  have hiltn : i < n := Nat.mod_lt _ hn0
  have hrbound : o.natDraws 1 % (n - 1) < n - 1 := Nat.mod_lt _ (by omega)
  have hrlt : r < n := by omega
  have hrpos : 1 ≤ r := by omega
  refine ⟨i, (i + r) % n, ?_, hiltn, Nat.mod_lt _ hn0, ?_⟩
  · simp [parent_indices, hi, hr]
  · intro heq
    by_cases hc : i + r < n
    · rw [Nat.mod_eq_of_lt hc] at heq
      omega
    · have hlt2 : i + r - n < n := by omega
      have : (i + r) % n = i + r - n := by
        rw [Nat.mod_eq_sub_mod (by omega), Nat.mod_eq_of_lt hlt2]
      rw [this] at heq
      omega

theorem breed_new_no_work (pop : List Candidate) (cap : Nat) (mp : ℚ) (o : Oracle)
    (h : ¬ pop.length < cap) : breed_new pop cap mp o = some (pop, false) := by
  simp [breed_new, if_neg h]

theorem breed_new_spec (pop : List Candidate) (cap : Nat) (mp : ℚ) (o : Oracle)
    (h2 : 2 ≤ pop.length) (hcap : pop.length < cap) (h0 : 0 ≤ mp) (h1 : mp ≤ 1) :
    ∃ i j child marked,
      parent_indices pop.length o = some (i, j) ∧ i ≠ j ∧ i < pop.length ∧
        j < pop.length ∧
        breed_new pop cap mp o = some (marked ++ [child], true) ∧
        marked.length = pop.length ∧
        marked.map Candidate.text = pop.map Candidate.text ∧
        marked.map Candidate.fitness = pop.map Candidate.fitness ∧
        child.fitness = -1 ∧ child.in_focus = true ∧
        (∀ L, (∀ c ∈ pop, c.text.length = L) → child.text.length = L) := by
  obtain ⟨i, j, hpi, hiltn, hjltn, hij⟩ := parent_indices_spec pop.length o h2
  have hlen1 : (reset_focus pop).length = pop.length := reset_focus_length pop
  obtain ⟨pa, hpa⟩ := get?_some_of_lt (reset_focus pop) i (by rw [hlen1]; exact hiltn)
  obtain ⟨pb, hpb⟩ := get?_some_of_lt (reset_focus pop) j (by rw [hlen1]; exact hjltn)
  obtain ⟨pop2, hsf1, htext2, hfit2, hlen2⟩ :=
    setFocusAt_spec (reset_focus pop) i (by rw [hlen1]; exact hiltn)
  obtain ⟨pop3, hsf2, htext3, hfit3, hlen3⟩ :=
    setFocusAt_spec pop2 j (by rw [hlen2, hlen1]; exact hjltn)
  obtain ⟨child0, hbr, hclen, hcfit, _⟩ := breed_some pa pb mp o h0 h1
  have hmark := markLastIfSome_append pop3 child0
  refine ⟨i, j, { child0 with in_focus := true }, pop3, hpi, hij, hiltn, hjltn,
    ?_, ?_, ?_, ?_, hcfit, rfl, ?_⟩
  · simp only [breed_new, if_pos hcap, hpi, hpa, hpb, hsf1, hsf2, hbr, hmark]
  · rw [hlen3, hlen2, hlen1]
  · rw [htext3, htext2, reset_focus_map_text]
  · rw [hfit3, hfit2, reset_focus_map_fitness]
  · intro L hL
    have hpamem : pa ∈ reset_focus pop := List.get?_mem hpa
    have hpbmem : pb ∈ reset_focus pop := List.get?_mem hpb
    obtain ⟨da, hda, hpaeq⟩ := List.mem_map.mp hpamem
    obtain ⟨db, hdb, hpbeq⟩ := List.mem_map.mp hpbmem
    have hpalen : pa.text.length = L := by rw [← hpaeq]; exact hL da hda
    have hpblen : pb.text.length = L := by rw [← hpbeq]; exact hL db hdb
    have : ({ child0 with in_focus := true } : Candidate).text = child0.text := rfl
    rw [this, hclen, hpalen, hpblen, Nat.min_self]

theorem breed_new_inv (pop pop' : List Candidate) (cap : Nat) (mp : ℚ) (o : Oracle)
    (b : Bool) (h : breed_new pop cap mp o = some (pop', b)) :
    (b = true ∧ pop.length < cap ∧ pop'.length = pop.length + 1) ∨
      (b = false ∧ pop' = pop ∧ ¬ pop.length < cap) := by
  by_cases hg : pop.length < cap
  · left
    simp only [breed_new, if_pos hg] at h
    cases hpi : parent_indices pop.length o with
    | none => simp only [hpi] at h; exact absurd h (by simp)
    | some ij =>
      simp only [hpi] at h
      cases hpa : (reset_focus pop).get? ij.1 with
      | none => simp only [hpa] at h; exact absurd h (by simp)
      | some pa =>
        cases hpb : (reset_focus pop).get? ij.2 with
        | none => simp only [hpa, hpb] at h; exact absurd h (by simp)
        | some pb =>
          simp only [hpa, hpb] at h
          cases hs1 : setFocusAt (reset_focus pop) ij.1 with
          | none => simp only [hs1] at h; exact absurd h (by simp)
          | some pop2 =>
            simp only [hs1] at h
            cases hs2 : setFocusAt pop2 ij.2 with
            | none => simp only [hs2] at h; exact absurd h (by simp)
            | some pop3 =>
              simp only [hs2] at h
              cases hbr : breed pa pb mp o with
              | none => simp only [hbr] at h; exact absurd h (by simp)
              | some child =>
                simp only [hbr, Option.some.injEq, Prod.mk.injEq] at h
                obtain ⟨h1, hb⟩ := h
                refine ⟨hb.symm, hg, ?_⟩
                rw [← h1, markLastIfSome_length, List.length_append,
                  setFocusAt_length pop2 pop3 ij.2 hs2,
                  setFocusAt_length (reset_focus pop) pop2 ij.1 hs1,
                  reset_focus_length]
                rfl
  · right
    rw [breed_new_no_work pop cap mp o hg] at h
    injection h with h'
    injection h' with h1 hb
    exact ⟨hb.symm, h1.symm, hg⟩

/-! ### The engine step on a phase without pending work -/

theorem next_noWork (ga : GA) (o : Oracle) (h : hasWork ga = false) :
    next ga o = some ({ ga with population := reset_focus ga.population,
                                state := ga.state.nextState }, none) := by
  cases hst : ga.state with
  | Init =>
    have hg : ¬ ga.population.length < ga.population_size := by
      simp only [hasWork] at h
      rw [hst] at h
      simpa using h
    have hg0 : ¬ (reset_focus ga.population).length < ga.population_size := by
      rw [reset_focus_length]; exact hg
    simp only [next]
    rw [hst]
    simp only [seed_population_no_work _ _ _ _ hg0, STATE.nextState]
  | ComputeFitness =>
    have hq : ∀ c ∈ ga.population, ¬ c.fitness < 0 := by
      simp only [hasWork] at h
      rw [hst] at h
      simpa using h
    have hcf := compute_fitness_no_work (reset_focus ga.population) ga.target_str
      (reset_focus_no_negative _ hq)
    simp only [next]
    rw [hst]
    simp only [hcf, STATE.nextState]
  | Reorder =>
    have h2 : (reorder_by_fitness (reset_focus ga.population)).2 = false := by
      simp only [hasWork] at h
      rw [hst] at h
      exact h
    have heq : reorder_by_fitness (reset_focus ga.population) =
        (reset_focus ga.population, false) := by
      have he := reorder_eq (reset_focus ga.population)
      have h2' : (bubbleAux (reset_focus ga.population).length
          (reset_focus ga.population)).2 = false := by
        rw [he] at h2; exact h2
      rw [he, bubbleAux_snd_false_eq _ _ h2', h2']
    simp only [next]
    rw [hst]
    simp only [heq, STATE.nextState]
  | RemoveUnfit =>
    have hg : ¬ ga.num_fit_to_keep < ga.population.length := by
      simp only [hasWork] at h
      rw [hst] at h
      simpa using h
    have hg0 : ¬ ga.num_fit_to_keep < (reset_focus ga.population).length := by
      rw [reset_focus_length]; exact hg
    simp only [next]
    rw [hst]
    simp only [remove_unfit_no_work _ _ hg0, STATE.nextState]
  | BreedNew =>
    have hg : ¬ ga.population.length < ga.population_size := by
      simp only [hasWork] at h
      rw [hst] at h
      simpa using h
    have hg0 : ¬ (reset_focus ga.population).length < ga.population_size := by
      rw [reset_focus_length]; exact hg
    simp only [next]
    rw [hst]
    simp only [breed_new_no_work _ _ _ _ hg0, STATE.nextState]

/-- Claim C2, counterexample.  A state in the ComputeFitness phase with
every candidate scored but the population out of order: the current phase
has no pending work, the next phase (Sorting) has pending work, yet the
single call performs no work unit (no notification, population unchanged
up to focus flags) and merely advances the phase — the engine does not
cascade into the next phase within the same call. -/
theorem c2_counterexample :
    hasWork ⟨[⟨['a'], 0, false⟩, ⟨['b'], 1, false⟩], ['a'],
        .ComputeFitness, 1, 2, 0⟩ = false ∧
    hasWork ⟨[⟨['a'], 0, false⟩, ⟨['b'], 1, false⟩], ['a'],
        .Reorder, 1, 2, 0⟩ = true ∧
    next ⟨[⟨['a'], 0, false⟩, ⟨['b'], 1, false⟩], ['a'],
        .ComputeFitness, 1, 2, 0⟩ constOracle =
      some (⟨[⟨['a'], 0, false⟩, ⟨['b'], 1, false⟩], ['a'],
        .Reorder, 1, 2, 0⟩, none) :=
  ⟨by decide, by decide, by decide⟩

/-- Claim C2, amended: when the current phase has no pending work, the
engine call clears the focus flags, advances exactly one phase, performs
no work unit and does not notify, returning without attempting the next
phase's work within the same call; that work waits for the next call. -/
theorem c2_amended (ga : GA) (o : Oracle) (h : hasWork ga = false) :
    next ga o = some ({ ga with population := reset_focus ga.population,
                                state := ga.state.nextState }, none) :=
  next_noWork ga o h

/-- Witness for C2 at a concrete no-work state (RemoveUnfit with the
population already at the survivor count). -/
theorem c2_witness :
    next ⟨[⟨['a'], 1, false⟩], ['a'], .RemoveUnfit, 1, 2, 0⟩ constOracle =
      some (⟨[⟨['a'], 1, false⟩], ['a'], .BreedNew, 1, 2, 0⟩, none) :=
  c2_amended ⟨[⟨['a'], 1, false⟩], ['a'], .RemoveUnfit, 1, 2, 0⟩ constOracle
    (by decide)

/-- Claim C8, counterexample.  A no-work step does change the population:
the focus reset at the start of every call clears a previously set
`in_focus` flag, so the population is not left untouched. -/
theorem c8_counterexample :
    hasWork ⟨[⟨['a'], 0, true⟩], ['a'], .ComputeFitness, 1, 2, 0⟩ = false ∧
    next ⟨[⟨['a'], 0, true⟩], ['a'], .ComputeFitness, 1, 2, 0⟩ constOracle =
      some (⟨[⟨['a'], 0, false⟩], ['a'], .Reorder, 1, 2, 0⟩, none) ∧
    (⟨[⟨['a'], 0, false⟩], ['a'], .Reorder, 1, 2, 0⟩ : GA).population ≠
      (⟨[⟨['a'], 0, true⟩], ['a'], .ComputeFitness, 1, 2, 0⟩ : GA).population :=
  ⟨by decide, by decide, by decide⟩

/-- Claim C8, amended: a step on a phase without pending work does not
notify the observer, adds or removes no candidate, changes no candidate's
text or fitness and advances the phase by one — but it does clear every
`in_focus` flag (the focus reset runs at the start of every call). -/
theorem c8_amended (ga : GA) (o : Oracle) (ga' : GA) (note : Option String)
    (hw : hasWork ga = false) (hn : next ga o = some (ga', note)) :
    note = none ∧
    ga'.population.map (fun c => (c.text, c.fitness)) =
      ga.population.map (fun c => (c.text, c.fitness)) ∧
    ga'.population.length = ga.population.length ∧
    (∀ c ∈ ga'.population, c.in_focus = false) ∧
    ga'.state = ga.state.nextState := by
  have he := next_noWork ga o hw
  rw [he] at hn
  injection hn with hn'
  injection hn' with h1 h2
  subst h1
  subst h2
  exact ⟨rfl, reset_focus_map_pair _, reset_focus_length _,
    reset_focus_all_false _, rfl⟩

/-- Witness for C8 at a concrete no-work state carrying a set focus flag. -/
theorem c8_witness :
    (none : Option String) = none ∧
    (⟨[⟨['a'], 0, false⟩], ['a'], .Reorder, 1, 2, 0⟩ : GA).population.map
        (fun c => (c.text, c.fitness)) =
      (⟨[⟨['a'], 0, true⟩], ['a'], .ComputeFitness, 1, 2, 0⟩ : GA).population.map
        (fun c => (c.text, c.fitness)) ∧
    (⟨[⟨['a'], 0, false⟩], ['a'], .Reorder, 1, 2, 0⟩ : GA).population.length =
      (⟨[⟨['a'], 0, true⟩], ['a'], .ComputeFitness, 1, 2, 0⟩ : GA).population.length ∧
    (∀ c ∈ (⟨[⟨['a'], 0, false⟩], ['a'], .Reorder, 1, 2, 0⟩ : GA).population,
      c.in_focus = false) ∧
    (⟨[⟨['a'], 0, false⟩], ['a'], .Reorder, 1, 2, 0⟩ : GA).state =
      (⟨[⟨['a'], 0, true⟩], ['a'],
        .ComputeFitness, 1, 2, 0⟩ : GA).state.nextState :=
  c8_amended ⟨[⟨['a'], 0, true⟩], ['a'], .ComputeFitness, 1, 2, 0⟩ constOracle
    ⟨[⟨['a'], 0, false⟩], ['a'], .Reorder, 1, 2, 0⟩ none (by decide) (by decide)

/-! ### Scoring (C5) -/

theorem filter_map_succ (p : Nat → Bool) :
    ∀ (l : List Nat),
      (l.map Nat.succ).filter p = (l.filter (fun i => p (i + 1))).map Nat.succ := by
  intro l
  induction l with
  | nil => rfl
  | cons a l ih =>
    simp only [List.map_cons, List.filter_cons]
    by_cases hp : p (a + 1) = true
    · simp only [Nat.succ_eq_add_one, hp, if_true, List.map_cons, ih]
    · simp [hp, ih]

theorem countMatches_eq_spec :
    ∀ (s t : List Char), s.length = t.length → countMatches s t = specMatchCount s t := by
  intro s
  induction s with
  | nil =>
    intro t h
    have ht : t = [] := List.length_eq_zero.mp h.symm
    subst ht
    rfl
  | cons a s ih =>
    intro t h
    cases t with
    | nil => simp at h
    | cons b t' =>
      have h' : s.length = t'.length := by simpa using h
      have hrec := ih t' h'
      have hcount : countMatches (a :: s) (b :: t') =
          (if a = b then 1 else 0) + countMatches s t' := by
        unfold countMatches
        rw [List.zip_cons_cons, List.filter_cons]
        by_cases hab : a = b
        · simp [hab, Nat.add_comm]
        · simp [hab]
      have hspec : specMatchCount (a :: s) (b :: t') =
          (if a = b then 1 else 0) + specMatchCount s t' := by
        unfold specMatchCount
        rw [List.length_cons, List.range_succ_eq_map, List.filter_cons]
        rw [filter_map_succ (fun i => decide ((a :: s).get? i = (b :: t').get? i))
          (List.range t'.length)]
        by_cases hab : a = b
        · simp [hab, Nat.add_comm]
        · simp [hab]
      rw [hcount, hspec, hrec]

/-- Claim C5: for equal-length candidate and target, scoring sets the
fitness to exactly the number of positions with equal characters, a value
between 0 and the target length, and leaves the text unchanged. -/
theorem c5_scoring (c : Candidate) (target : List Char)
    (h : c.text.length = target.length) :
    (c.set_fitness target).fitness = (specMatchCount c.text target : Int) ∧
    0 ≤ (c.set_fitness target).fitness ∧
    (c.set_fitness target).fitness ≤ (target.length : Int) ∧
    (c.set_fitness target).text = c.text := by
  have he : (c.set_fitness target).fitness = (countMatches c.text target : Int) := rfl
  refine ⟨by rw [he, countMatches_eq_spec _ _ h], ?_, ?_, rfl⟩
  · rw [he]
    exact_mod_cast Nat.zero_le _
  · rw [he]
    have hb : countMatches c.text target ≤ target.length := by
      unfold countMatches
      calc ((c.text.zip target).filter (fun p => decide (p.1 = p.2))).length
          ≤ (c.text.zip target).length := List.length_filter_le _ _
        _ = min c.text.length target.length := List.length_zip _ _
        _ ≤ target.length := Nat.min_le_right _ _
    exact_mod_cast hb

/-- Witness for C5: candidate text cot against target cat scores 2. -/
theorem c5_witness :
    ((⟨['c','o','t'], -1, false⟩ : Candidate).set_fitness ['c','a','t']).fitness =
      (specMatchCount ['c','o','t'] ['c','a','t'] : Int) ∧
    0 ≤ ((⟨['c','o','t'], -1, false⟩ : Candidate).set_fitness ['c','a','t']).fitness ∧
    ((⟨['c','o','t'], -1, false⟩ : Candidate).set_fitness ['c','a','t']).fitness ≤
      ((['c','a','t'] : List Char).length : Int) ∧
    ((⟨['c','o','t'], -1, false⟩ : Candidate).set_fitness ['c','a','t']).text =
      ['c','o','t'] ∧
    ((⟨['c','o','t'], -1, false⟩ : Candidate).set_fitness ['c','a','t']).fitness = 2 := by
  have h := c5_scoring ⟨['c','o','t'], -1, false⟩ ['c','a','t'] (by decide)
  exact ⟨h.1, h.2.1, h.2.2.1, h.2.2.2, by decide⟩

/-! ### Breeding step (C6) -/

/-- Claim C6: for a Breeding step on a population of size at least two
and below the cap, the chosen parent indices are distinct and in bounds,
exactly one child is appended at the end (the prefix keeps the same
length and texts), and the child's text length equals the common
candidate text length (the target length in an engine run). -/
theorem c6_breeding (pop : List Candidate) (cap : Nat) (mp : ℚ) (o : Oracle) (L : Nat)
    (h2 : 2 ≤ pop.length) (hcap : pop.length < cap) (h0 : 0 ≤ mp) (h1 : mp ≤ 1)
    (hL : ∀ c ∈ pop, c.text.length = L) :
    ∃ i j child marked,
      parent_indices pop.length o = some (i, j) ∧ i ≠ j ∧ i < pop.length ∧
        j < pop.length ∧
        breed_new pop cap mp o = some (marked ++ [child], true) ∧
        marked.length = pop.length ∧
        marked.map Candidate.text = pop.map Candidate.text ∧
        child.text.length = L := by
  obtain ⟨i, j, child, marked, hpi, hij, hi, hj, hbn, hmlen, hmtext, _, _, _, hclen⟩ :=
    breed_new_spec pop cap mp o h2 hcap h0 h1
  exact ⟨i, j, child, marked, hpi, hij, hi, hj, hbn, hmlen, hmtext, hclen L hL⟩

/-- Witness for C6 at a concrete two-candidate population. -/
theorem c6_witness :
    ∃ i j child marked,
      parent_indices ([(⟨['a'], 1, false⟩ : Candidate), ⟨['b'], 0, false⟩].length)
          constOracle = some (i, j) ∧ i ≠ j ∧
        i < [(⟨['a'], 1, false⟩ : Candidate), ⟨['b'], 0, false⟩].length ∧
        j < [(⟨['a'], 1, false⟩ : Candidate), ⟨['b'], 0, false⟩].length ∧
        breed_new [(⟨['a'], 1, false⟩ : Candidate), ⟨['b'], 0, false⟩] 3 0
            constOracle = some (marked ++ [child], true) ∧
        marked.length = [(⟨['a'], 1, false⟩ : Candidate), ⟨['b'], 0, false⟩].length ∧
        marked.map Candidate.text =
          [(⟨['a'], 1, false⟩ : Candidate), ⟨['b'], 0, false⟩].map Candidate.text ∧
        child.text.length = 1 :=
  c6_breeding [⟨['a'], 1, false⟩, ⟨['b'], 0, false⟩] 3 0 constOracle 1
    (by decide) (by decide) (by decide) (by decide) (by decide)

/-! ### Mutation law at probability zero (C9) -/

theorem breedText_length (mp : ℚ) (o : Oracle) :
    ∀ (ps : List (Char × Char)) (k0 : Nat) (t : List Char),
      breedText mp o k0 ps = some t → t.length = ps.length := by
  intro ps
  induction ps with
  | nil =>
    intro k0 t h
    injection h with h'
    subst h'
    rfl
  | cons p rest ih =>
    intro k0 t h
    unfold breedText at h
    cases hc : breedChar mp o k0 p with
    | none => rw [hc] at h; exact absurd h (by simp)
    | some ch =>
      cases hr : breedText mp o (k0 + 1) rest with
      | none => rw [hc, hr] at h; exact absurd h (by simp)
      | some t' =>
        rw [hc, hr] at h
        injection h with h'
        subst h'
        simp [ih (k0 + 1) t' hr]

theorem breedChar_zero (o : Oracle) (k : Nat) (ab : Char × Char) :
    breedChar 0 o k ab =
      some (if decide (o.ratDraws (2 * k + 1) < mkRat 1 2) then ab.1 else ab.2) := by
  unfold breedChar
  rw [genBool, if_pos (⟨le_refl (0 : ℚ), by norm_num⟩ : (0:ℚ) ≤ 0 ∧ (0:ℚ) ≤ 1)]
  rw [decide_eq_false (not_lt.mpr (o.ratDraws_nonneg (2 * k)))]
  rw [genBool, if_pos (by decide : (0:ℚ) ≤ mkRat 1 2 ∧ mkRat 1 2 ≤ (1:ℚ))]

/-- Claim C9: with mutation probability 0, every position of a bred child
carries the character of parent A or of parent B at that same position. -/
theorem c9_mutation_zero (pa pb : Candidate) (o : Oracle) (child : Candidate)
    (hb : breed pa pb 0 o = some child) (k : Nat) (hk : k < child.text.length) :
    (∃ ca, pa.text.get? k = some ca ∧ child.text.get? k = some ca) ∨
      (∃ cb, pb.text.get? k = some cb ∧ child.text.get? k = some cb) := by
  unfold breed at hb
  cases hbt : breedText 0 o 0 (pa.text.zip pb.text) with
  | none => rw [hbt] at hb; exact absurd hb (by simp)
  | some t =>
    rw [hbt] at hb
    injection hb with hb'
    subst hb'
    have hk' : k < t.length := hk
    have hlen := breedText_length 0 o (pa.text.zip pb.text) 0 t hbt
    have hkps : k < (pa.text.zip pb.text).length := by rw [← hlen]; exact hk'
    obtain ⟨ab, hab⟩ := get?_some_of_lt _ k hkps
    obtain ⟨ch, hch, hbc⟩ := breedText_get? 0 o (pa.text.zip pb.text) 0 t hbt k ab hab
    rw [Nat.zero_add] at hbc
    rw [breedChar_zero] at hbc
    injection hbc with hbc'
    obtain ⟨hza, hzb⟩ := zip_get? pa.text pb.text k ab hab
    by_cases hcoin : o.ratDraws (2 * k + 1) < mkRat 1 2
    · left
      refine ⟨ab.1, hza, ?_⟩
      show t.get? k = some ab.1
      rw [hch, ← hbc', if_pos (by simp [hcoin])]
    · right
      refine ⟨ab.2, hzb, ?_⟩
      show t.get? k = some ab.2
      rw [hch, ← hbc', if_neg (by simp [hcoin])]

/-- Witness for C9 at concrete one-character parents. -/
theorem c9_witness :
    (∃ ca, (⟨['a'], -1, false⟩ : Candidate).text.get? 0 = some ca ∧
        (⟨['a'], -1, false⟩ : Candidate).text.get? 0 = some ca) ∨
      (∃ cb, (⟨['b'], -1, false⟩ : Candidate).text.get? 0 = some cb ∧
        (⟨['a'], -1, false⟩ : Candidate).text.get? 0 = some cb) :=
  c9_mutation_zero ⟨['a'], -1, false⟩ ⟨['b'], -1, false⟩ constOracle
    ⟨['a'], -1, false⟩ (by decide) 0 (by decide)

/-! ### Step inversion and run-level invariants (C3, C4) -/

theorem next_inv (ga : GA) (o : Oracle) (ga' : GA) (note : Option String)
    (h : next ga o = some (ga', note)) :
    ga'.target_str = ga.target_str ∧ ga'.num_fit_to_keep = ga.num_fit_to_keep ∧
      ga'.population_size = ga.population_size ∧
      ga'.mutation_prob = ga.mutation_prob ∧
      (ga'.population.length = ga.population.length ∨
        (ga'.population.length = ga.population.length + 1 ∧
          ga.population.length < ga.population_size) ∨
        (ga'.population.length + 1 = ga.population.length ∧
          ga.num_fit_to_keep < ga.population.length)) := by
  cases hst : ga.state with
  | Init =>
    simp only [next] at h
    rw [hst] at h
    cases hseed : seed_population (reset_focus ga.population) ga.population_size
        ga.target_str.length o with
    | none => simp only [hseed] at h; exact absurd h (by simp)
    | some pb =>
      obtain ⟨pop', b⟩ := pb
      obtain hcase := seed_population_inv _ _ _ _ _ _ hseed
      cases b with
      | true =>
        simp only [hseed] at h
        injection h with h'
        injection h' with hga hnote
        subst hga
        rcases hcase with ⟨_, hlt, hlen⟩ | ⟨hb, _, _⟩
        · refine ⟨rfl, rfl, rfl, rfl, Or.inr (Or.inl ⟨?_, ?_⟩)⟩
          · show pop'.length = ga.population.length + 1
            rw [hlen, reset_focus_length]
          · rw [reset_focus_length] at hlt
            exact hlt
        · exact absurd hb (by decide)
      | false =>
        simp only [hseed] at h
        injection h with h'
        injection h' with hga hnote
        subst hga
        rcases hcase with ⟨hb, _, _⟩ | ⟨_, heq, _⟩
        · exact absurd hb (by decide)
        · refine ⟨rfl, rfl, rfl, rfl, Or.inl ?_⟩
          show pop'.length = ga.population.length
          rw [heq, reset_focus_length]
  | ComputeFitness =>
    simp only [next] at h
    rw [hst] at h
    rcases hcf : compute_fitness (reset_focus ga.population) ga.target_str with ⟨pop', b⟩
    have hlen : pop'.length = ga.population.length := by
      have hl := compute_fitness_length (reset_focus ga.population) ga.target_str
      rw [hcf] at hl
      simpa [reset_focus_length] using hl
    cases b with
    | true =>
      simp only [hcf] at h
      injection h with h'
      injection h' with hga hnote
      subst hga
      exact ⟨rfl, rfl, rfl, rfl, Or.inl hlen⟩
    | false =>
      simp only [hcf] at h
      injection h with h'
      injection h' with hga hnote
      subst hga
      exact ⟨rfl, rfl, rfl, rfl, Or.inl hlen⟩
  | Reorder =>
    simp only [next] at h
    rw [hst] at h
    rcases hre : reorder_by_fitness (reset_focus ga.population) with ⟨pop', b⟩
    have hlen : pop'.length = ga.population.length := by
      have hl : (reorder_by_fitness (reset_focus ga.population)).1.length =
          (reset_focus ga.population).length := by
        rw [reorder_eq]
        exact (bubbleAux_perm _ _).length_eq
      rw [hre] at hl
      simpa [reset_focus_length] using hl
    cases b with
    | true =>
      simp only [hre] at h
      injection h with h'
      injection h' with hga hnote
      subst hga
      exact ⟨rfl, rfl, rfl, rfl, Or.inl hlen⟩
    | false =>
      simp only [hre] at h
      injection h with h'
      injection h' with hga hnote
      subst hga
      exact ⟨rfl, rfl, rfl, rfl, Or.inl hlen⟩
  | RemoveUnfit =>
    simp only [next] at h
    rw [hst] at h
    by_cases hg : ga.num_fit_to_keep < (reset_focus ga.population).length
    · simp only [remove_unfit_work _ _ hg] at h
      injection h with h'
      injection h' with hga hnote
      subst hga
      rw [reset_focus_length] at hg
      refine ⟨rfl, rfl, rfl, rfl, Or.inr (Or.inr ⟨?_, hg⟩)⟩
      show (markLastIfSome (reset_focus ga.population).dropLast).length + 1 =
        ga.population.length
      rw [remove_unfit_work_length, reset_focus_length]
      omega
    · simp only [remove_unfit_no_work _ _ hg] at h
      injection h with h'
      injection h' with hga hnote
      subst hga
      refine ⟨rfl, rfl, rfl, rfl, Or.inl ?_⟩
      exact reset_focus_length ga.population
  | BreedNew =>
    simp only [next] at h
    rw [hst] at h
    cases hbn : breed_new (reset_focus ga.population) ga.population_size
        ga.mutation_prob o with
    | none => simp only [hbn] at h; exact absurd h (by simp)
    | some pb =>
      obtain ⟨pop', b⟩ := pb
      obtain hcase := breed_new_inv _ _ _ _ _ _ hbn
      cases b with
      | true =>
        simp only [hbn] at h
        injection h with h'
        injection h' with hga hnote
        subst hga
        rcases hcase with ⟨_, hlt, hlen⟩ | ⟨hb, _, _⟩
        · rw [reset_focus_length] at hlt hlen
          exact ⟨rfl, rfl, rfl, rfl, Or.inr (Or.inl ⟨hlen, hlt⟩)⟩
        · exact absurd hb (by decide)
      | false =>
        simp only [hbn] at h
        injection h with h'
        injection h' with hga hnote
        subst hga
        rcases hcase with ⟨hb, _, _⟩ | ⟨_, heq, _⟩
        · exact absurd hb (by decide)
        · refine ⟨rfl, rfl, rfl, rfl, Or.inl ?_⟩
          show pop'.length = ga.population.length
          rw [heq, reset_focus_length]

theorem next_total_inv (ga : GA) (o : Oracle) (hinv : EngineInv ga) :
    ∃ ga' note, next ga o = some (ga', note) ∧ EngineInv ga' := by
  obtain ⟨hk2, hkc, hmp0, hmp1, hlen⟩ := hinv
  cases hst : ga.state with
  | Init =>
    rw [hst] at hlen
    simp only [stateLenInv] at hlen
    by_cases hg : (reset_focus ga.population).length < ga.population_size
    · obtain ⟨txt, htlen, hseed⟩ :=
        seed_population_work (reset_focus ga.population) ga.population_size
          ga.target_str.length o hg
      refine ⟨{ ga with population := reset_focus ga.population ++ [({ text := txt, fitness := -1, in_focus := true } : Candidate)] },
        some (STATE.description .Init), ?_, ?_⟩
      · simp only [next]
        rw [hst]
        simp only [hseed]
      · rw [reset_focus_length] at hg
        refine ⟨hk2, hkc, hmp0, hmp1, ?_⟩
        show stateLenInv ga.state
          (reset_focus ga.population ++ [({ text := txt, fitness := -1, in_focus := true } : Candidate)]).length
          ga.num_fit_to_keep ga.population_size
        rw [hst]
        simp only [stateLenInv, List.length_append, reset_focus_length]
        simpa using hg
    · refine ⟨{ ga with population := reset_focus ga.population, state := .ComputeFitness },
        none, ?_, ?_⟩
      · simp only [next]
        rw [hst]
        simp only [seed_population_no_work _ _ _ _ hg]
      · rw [reset_focus_length] at hg
        refine ⟨hk2, hkc, hmp0, hmp1, ?_⟩
        simp only [stateLenInv, reset_focus_length]
        omega
  | ComputeFitness =>
    rw [hst] at hlen
    simp only [stateLenInv] at hlen
    rcases hcf : compute_fitness (reset_focus ga.population) ga.target_str with ⟨pop', b⟩
    have hplen : pop'.length = ga.population.length := by
      have hl := compute_fitness_length (reset_focus ga.population) ga.target_str
      rw [hcf] at hl
      simpa [reset_focus_length] using hl
    cases b with
    | true =>
      refine ⟨{ ga with population := pop' },
        some (STATE.description .ComputeFitness), ?_, ?_⟩
      · simp only [next]
        rw [hst]
        simp only [hcf]
      · refine ⟨hk2, hkc, hmp0, hmp1, ?_⟩
        show stateLenInv ga.state pop'.length ga.num_fit_to_keep ga.population_size
        rw [hst]
        simp only [stateLenInv]
        omega
    | false =>
      refine ⟨{ ga with population := pop', state := .Reorder }, none, ?_, ?_⟩
      · simp only [next]
        rw [hst]
        simp only [hcf]
      · refine ⟨hk2, hkc, hmp0, hmp1, ?_⟩
        simp only [stateLenInv]
        omega
  | Reorder =>
    rw [hst] at hlen
    simp only [stateLenInv] at hlen
    rcases hre : reorder_by_fitness (reset_focus ga.population) with ⟨pop', b⟩
    have hplen : pop'.length = ga.population.length := by
      have hl : (reorder_by_fitness (reset_focus ga.population)).1.length =
          (reset_focus ga.population).length := by
        rw [reorder_eq]
        exact (bubbleAux_perm _ _).length_eq
      rw [hre] at hl
      simpa [reset_focus_length] using hl
    cases b with
    | true =>
      refine ⟨{ ga with population := pop' }, some (STATE.description .Reorder), ?_, ?_⟩
      · simp only [next]
        rw [hst]
        simp only [hre]
      · refine ⟨hk2, hkc, hmp0, hmp1, ?_⟩
        show stateLenInv ga.state pop'.length ga.num_fit_to_keep ga.population_size
        rw [hst]
        simp only [stateLenInv]
        omega
    | false =>
      refine ⟨{ ga with population := pop', state := .RemoveUnfit }, none, ?_, ?_⟩
      · simp only [next]
        rw [hst]
        simp only [hre]
      · refine ⟨hk2, hkc, hmp0, hmp1, ?_⟩
        simp only [stateLenInv]
        omega
  | RemoveUnfit =>
    rw [hst] at hlen
    simp only [stateLenInv] at hlen
    by_cases hg : ga.num_fit_to_keep < (reset_focus ga.population).length
    · refine ⟨{ ga with population := markLastIfSome (reset_focus ga.population).dropLast },
        some (STATE.description .RemoveUnfit), ?_, ?_⟩
      · simp only [next]
        rw [hst]
        simp only [remove_unfit_work _ _ hg]
      · rw [reset_focus_length] at hg
        refine ⟨hk2, hkc, hmp0, hmp1, ?_⟩
        show stateLenInv ga.state
          (markLastIfSome (reset_focus ga.population).dropLast).length
          ga.num_fit_to_keep ga.population_size
        rw [hst]
        simp only [stateLenInv, remove_unfit_work_length, reset_focus_length]
        omega
    · refine ⟨{ ga with population := reset_focus ga.population, state := .BreedNew },
        none, ?_, ?_⟩
      · simp only [next]
        rw [hst]
        simp only [remove_unfit_no_work _ _ hg]
      · rw [reset_focus_length] at hg
        refine ⟨hk2, hkc, hmp0, hmp1, ?_⟩
        simp only [stateLenInv, reset_focus_length]
        omega
  | BreedNew =>
    rw [hst] at hlen
    simp only [stateLenInv] at hlen
    by_cases hg : (reset_focus ga.population).length < ga.population_size
    · have h2' : 2 ≤ (reset_focus ga.population).length := by
        rw [reset_focus_length]
        omega
      obtain ⟨i, j, child, marked, _, _, _, _, hbn, hmlen, _, _, _, _, _⟩ :=
        breed_new_spec (reset_focus ga.population) ga.population_size
          ga.mutation_prob o h2' hg hmp0 hmp1
      refine ⟨{ ga with population := marked ++ [child] },
        some (STATE.description .BreedNew), ?_, ?_⟩
      · simp only [next]
        rw [hst]
        simp only [hbn]
      · rw [reset_focus_length] at hg hmlen
        refine ⟨hk2, hkc, hmp0, hmp1, ?_⟩
        show stateLenInv ga.state (marked ++ [child]).length
          ga.num_fit_to_keep ga.population_size
        rw [hst]
        simp only [stateLenInv, List.length_append, List.length_singleton, hmlen]
        omega
    · refine ⟨{ ga with population := reset_focus ga.population, state := .Init },
        none, ?_, ?_⟩
      · simp only [next]
        rw [hst]
        simp only [breed_new_no_work _ _ _ _ hg]
      · rw [reset_focus_length] at hg
        refine ⟨hk2, hkc, hmp0, hmp1, ?_⟩
        simp only [stateLenInv, reset_focus_length]
        omega

theorem runSteps_inv (P : GA → Prop)
    (hstep : ∀ ga o ga' note, P ga → next ga o = some (ga', note) → P ga') :
    ∀ (n : Nat) (ga : GA) (os : Nat → Oracle) (g' : GA),
      P ga → runSteps n ga os = some g' → P g' := by
  intro n
  induction n with
  | zero =>
    intro ga os g' hp h
    injection h with h'
    rw [← h']
    exact hp
  | succ n ih =>
    intro ga os g' hp h
    simp only [runSteps] at h
    cases hn : next ga (os 0) with
    | none => simp only [hn] at h; exact absurd h (by simp)
    | some p =>
      obtain ⟨ga1, note1⟩ := p
      simp only [hn] at h
      exact ih ga1 _ g' (hstep ga (os 0) ga1 note1 hp hn) h

theorem runSteps_total :
    ∀ (n : Nat) (ga : GA) (os : Nat → Oracle), EngineInv ga → runSteps n ga os ≠ none := by
  intro n
  induction n with
  | zero => intro ga os _; simp [runSteps]
  | succ n ih =>
    intro ga os hinv
    obtain ⟨ga', note, hn, hinv'⟩ := next_total_inv ga (os 0) hinv
    simp only [runSteps, hn]
    exact ih ga' _ hinv'

theorem runSteps_add :
    ∀ (m k : Nat) (ga : GA) (os : Nat → Oracle),
      runSteps (m + k) ga os =
        match runSteps m ga os with
        | none => none
        | some g => runSteps k g (fun i => os (i + m)) := by
  intro m
  induction m with
  | zero =>
    intro k ga os
    simp only [Nat.zero_add, runSteps]
    rfl
  | succ m ih =>
    intro k ga os
    have hsm : m + 1 + k = (m + k) + 1 := by omega
    rw [hsm]
    simp only [runSteps]
    cases hn : next ga (os 0) with
    | none => simp only [hn]
    | some p =>
      obtain ⟨ga1, note1⟩ := p
      simp only [hn]
      rw [ih k ga1 (fun i => os (i + 1))]
      rfl

/-- Claim C3, counterexample.  The configuration survivor count 1, cap 2
satisfies the claimed invariant 0 < survivor count < cap, the constructor
accepts it without any check, and yet the run panics: after seeding,
scoring, sorting and one cull the population holds one candidate, and the
Breeding step calls the random-range draw on the empty range [1, 1),
which panics — the tenth engine call fails. -/
theorem c3_counterexample :
    0 < 1 ∧ 1 < 2 ∧
    runSteps 9 (GeneticAlgorithm.new [] ['a'] 1 2 0) (fun _ => constOracle) ≠ none ∧
    runSteps 10 (GeneticAlgorithm.new [] ['a'] 1 2 0) (fun _ => constOracle) = none :=
  ⟨by decide, by decide, by decide, by decide⟩

/-- Claim C3, amended: with at least two survivors (2 ≤ survivor count
< cap) and a mutation probability in [0,1], no engine operation panics at
any step of a run started from the empty population; the configuration
is, however, not validated at construction — `GeneticAlgorithm.new`
stores any parameters, and invalid ones (survivor count 1) surface as a
mid-run panic instead. -/
theorem c3_amended (t : List Char) (keep cap : Nat) (mp : ℚ)
    (h2 : 2 ≤ keep) (hlt : keep < cap) (h0 : 0 ≤ mp) (h1 : mp ≤ 1)
    (os : Nat → Oracle) (n : Nat) :
    runSteps n (GeneticAlgorithm.new [] t keep cap mp) os ≠ none := by
  apply runSteps_total
  exact ⟨h2, hlt, h0, h1, Nat.zero_le cap⟩

/-- Witness for C3 at a concrete valid configuration. -/
theorem c3_witness :
    runSteps 3 (GeneticAlgorithm.new [] ['a'] 2 3 0) (fun _ => constOracle) ≠ none :=
  c3_amended ['a'] 2 3 0 (by decide) (by decide) (by decide) (by decide)
    (fun _ => constOracle) 3

/-- Claim C4: in every run from the empty population, the population
size after any number of steps never exceeds the configured cap, and once
it has reached the survivor count it never drops below it in any later
step of the run. -/
theorem c4_population_bounds (t : List Char) (keep cap : Nat) (mp : ℚ)
    (os : Nat → Oracle) :
    (∀ n g', runSteps n (GeneticAlgorithm.new [] t keep cap mp) os = some g' →
      g'.population.length ≤ cap) ∧
    (∀ m k g1 g2,
      runSteps m (GeneticAlgorithm.new [] t keep cap mp) os = some g1 →
      keep ≤ g1.population.length →
      runSteps (m + k) (GeneticAlgorithm.new [] t keep cap mp) os = some g2 →
      keep ≤ g2.population.length) := by
  have hstep1 : ∀ ga o ga' note,
      (ga.population.length ≤ ga.population_size ∧ ga.population_size = cap) →
      next ga o = some (ga', note) →
      (ga'.population.length ≤ ga'.population_size ∧ ga'.population_size = cap) := by
    intro ga o ga' note hp hn
    obtain ⟨_, _, hsz, _, hcases⟩ := next_inv ga o ga' note hn
    obtain ⟨hle, hcap⟩ := hp
    refine ⟨?_, by rw [hsz]; exact hcap⟩
    rw [hsz]
    rcases hcases with hsame | ⟨hinc, hlt⟩ | ⟨hdec, _⟩ <;> omega
  have hstep2 : ∀ ga o ga' note,
      (keep ≤ ga.population.length ∧ ga.num_fit_to_keep = keep) →
      next ga o = some (ga', note) →
      (keep ≤ ga'.population.length ∧ ga'.num_fit_to_keep = keep) := by
    intro ga o ga' note hp hn
    obtain ⟨_, hk, _, _, hcases⟩ := next_inv ga o ga' note hn
    obtain ⟨hf, hkeq⟩ := hp
    refine ⟨?_, by rw [hk]; exact hkeq⟩
    rcases hcases with hsame | ⟨hinc, _⟩ | ⟨hdec, hgt⟩ <;> omega
  constructor
  · intro n g' hrun
    have hP := runSteps_inv
      (fun ga => ga.population.length ≤ ga.population_size ∧ ga.population_size = cap)
      hstep1 n _ os g' (by exact ⟨Nat.zero_le cap, rfl⟩) hrun
    omega
  · intro m k g1 g2 h1 hfloor h2
    have hadd := runSteps_add m k (GeneticAlgorithm.new [] t keep cap mp) os
    rw [h1] at hadd
    rw [hadd] at h2
    have hkeep : g1.num_fit_to_keep = keep := by
      refine runSteps_inv (fun ga => ga.num_fit_to_keep = keep) ?_ m _ os g1 rfl h1
      intro ga o ga' note hp hn
      obtain ⟨_, hk, _, _, _⟩ := next_inv ga o ga' note hn
      rw [hk]
      exact hp
    have hQ := runSteps_inv
      (fun ga => keep ≤ ga.population.length ∧ ga.num_fit_to_keep = keep)
      hstep2 k g1 _ g2 ⟨hfloor, hkeep⟩ h2
    exact hQ.1

/-- Witness for C4: two steps of a concrete run seed two candidates,
staying at or below the cap 2 and at or above the survivor count 1. -/
theorem c4_witness :
    (⟨[⟨['a'], -1, false⟩, ⟨['a'], -1, true⟩], ['a'],
        .Init, 1, 2, 0⟩ : GA).population.length ≤ 2 ∧
    1 ≤ (⟨[⟨['a'], -1, false⟩, ⟨['a'], -1, true⟩], ['a'],
        .Init, 1, 2, 0⟩ : GA).population.length := by
  have h := c4_population_bounds ['a'] 1 2 0 (fun _ => constOracle)
  exact ⟨h.1 2 _ (by decide),
    h.2 1 1 ⟨[⟨['a'], -1, true⟩], ['a'], .Init, 1, 2, 0⟩ _ (by decide) (by decide)
      (by decide)⟩
end GAHello
